import Mathlib

/-!
Verification of the two exported native functions of this repository.

* `src/size.c` exports `size(x, y) = sqrt(x * x + y * y)` over IEEE binary64.
  We embed it twice:
  - `size` over the real numbers: a finite double stands for its exact real
    value and arithmetic is exact (rounding is not modelled);
  - `FP` / `FP.size` over an extended type with the IEEE special values
    `nan`, `posInf`, `negInf`, where finite payloads are exact reals and a
    finite operation overflows to an infinity when its exact result exceeds
    the largest finite binary64 magnitude `maxFinite`.

* `src/ebur128_wrapper.c` exports `get_version()`, which queries the linked
  library for a version triple and renders it with `sprintf(version,
  "%d.%d.%d", major, minor, patch)` into a `static char version[8]` buffer.
  We embed the `%d` conversion as an explicit minimal-decimal renderer
  (`natDigits` / `intDigits`), the full format as `versionChars` /
  `formatVersion`, and the static buffer as threaded state in
  `get_version` / `runCalls`.
-/

/-- Embedding of `size` from `src/size.c`:
`double size(double x, double y) { return sqrt(x * x + y * y); }`,
read over the exact reals. -/
noncomputable def size (x y : ℝ) : ℝ :=
  Real.sqrt (x * x + y * y)

/-- C1: for all inputs, `size x y` is the square root of `x*x + y*y`,
which is exactly the Euclidean norm of the vector `(x, y)` (realised here
as the absolute value of the complex number with real part `x` and
imaginary part `y`), and it is non-negative. -/
theorem size_eq_euclidean_norm (x y : ℝ) :
    size x y = Real.sqrt (x * x + y * y) ∧
    size x y = Complex.abs ⟨x, y⟩ ∧
    0 ≤ size x y := by
  refine ⟨rfl, ?_, Real.sqrt_nonneg _⟩
  rw [Complex.abs_apply, Complex.normSq_mk, size]

/-- C4: `size` is independent of the signs of its arguments. -/
theorem size_sign_independent (x y : ℝ) :
    size x y = size (-x) y ∧ size x y = size x (-y) ∧
    size x y = size (-x) (-y) := by
  unfold size
  constructor
  · ring_nf
  constructor
  · ring_nf
  · ring_nf

/-- C5: `size x y` is non-negative for all inputs. -/
theorem size_nonneg (x y : ℝ) : 0 ≤ size x y :=
  Real.sqrt_nonneg _

/-- C6: the literal scenarios `size 0 0 = 0`, `size 3 4 = 5`,
`size 1 0 = 1` and `size 0 1 = 1` hold exactly. -/
theorem size_literal_values :
    size 0 0 = 0 ∧ size 3 4 = 5 ∧ size 1 0 = 1 ∧ size 0 1 = 1 := by
  refine ⟨?_, ?_, ?_, ?_⟩
  · unfold size
    norm_num
  · unfold size
    rw [show (3 : ℝ) * 3 + 4 * 4 = 5 ^ 2 by norm_num]
    exact Real.sqrt_sq (by norm_num)
  · unfold size
    norm_num
  · unfold size
    norm_num

/-!
## Binary64 special values

`FP` models an IEEE binary64 value as `nan`, an infinity, or a finite value
carried as its exact real value.  The operations used by `size` are given
their IEEE semantics on special values; a finite `*` or `+` overflows to an
infinity when the exact result exceeds `maxFinite` in magnitude (rounding of
in-range finite results is not modelled).
-/

inductive FP where
  | nan : FP
  | posInf : FP
  | negInf : FP
  | finite : ℝ → FP

/-- The largest finite binary64 value, `(2^53 - 1) * 2^971 = (2 - 2^-52) * 2^1023`. -/
noncomputable def maxFinite : ℝ := (2 ^ 53 - 1) * 2 ^ 971

/-- IEEE binary64 multiplication on `FP` (exact on in-range finite values). -/
noncomputable def FP.mul : FP → FP → FP
  | nan, _ => nan
  | _, nan => nan
  | posInf, posInf => posInf
  | posInf, negInf => negInf
  | negInf, posInf => negInf
  | negInf, negInf => posInf
  | posInf, finite v => if v = 0 then nan else if 0 < v then posInf else negInf
  | finite v, posInf => if v = 0 then nan else if 0 < v then posInf else negInf
  | negInf, finite v => if v = 0 then nan else if 0 < v then negInf else posInf
  | finite v, negInf => if v = 0 then nan else if 0 < v then negInf else posInf
  | finite a, finite b =>
      if maxFinite < a * b then posInf
      else if a * b < -maxFinite then negInf
      else finite (a * b)

/-- IEEE binary64 addition on `FP` (exact on in-range finite values). -/
noncomputable def FP.add : FP → FP → FP
  | nan, _ => nan
  | _, nan => nan
  | posInf, negInf => nan
  | negInf, posInf => nan
  | posInf, _ => posInf
  | _, posInf => posInf
  | negInf, _ => negInf
  | _, negInf => negInf
  | finite a, finite b =>
      if maxFinite < a + b then posInf
      else if a + b < -maxFinite then negInf
      else finite (a + b)

/-- IEEE binary64 square root on `FP`. -/
noncomputable def FP.sqrt : FP → FP
  | nan => nan
  | posInf => posInf
  | negInf => nan
  | finite v => if v < 0 then nan else finite (Real.sqrt v)

/-- Embedding of `size` from `src/size.c` over `FP`:
`sqrt(x * x + y * y)` with IEEE special-value semantics. -/
noncomputable def FP.size (x y : FP) : FP :=
  FP.sqrt (FP.add (FP.mul x x) (FP.mul y y))

lemma FP.add_nan_right : ∀ x : FP, FP.add x FP.nan = FP.nan := by
  intro x
  cases x <;> rfl

lemma FP.add_nan_left : ∀ x : FP, FP.add FP.nan x = FP.nan := by
  intro x
  cases x <;> rfl

lemma FP.add_swap : ∀ x y : FP, FP.add x y = FP.add y x := by
  intro x y
  cases x <;> cases y <;> simp [FP.add]
  rw [add_comm]

lemma maxFinite_pos : 0 < maxFinite := by
  unfold maxFinite
  positivity

/-- C7: `size` propagates non-finite values: a `nan` input yields a `nan`
result, and finite inputs whose square overflows the binary64 range yield
an infinite result. -/
theorem size_nonfinite_propagation :
    (∀ x y : FP, (x = FP.nan ∨ y = FP.nan) → FP.size x y = FP.nan) ∧
    (∀ a b : ℝ, maxFinite < a * a →
      FP.size (FP.finite a) (FP.finite b) = FP.posInf) := by
  constructor
  · rintro x y (rfl | rfl)
    · show FP.sqrt (FP.add (FP.mul FP.nan FP.nan) (FP.mul y y)) = FP.nan
      rw [show FP.mul FP.nan FP.nan = FP.nan from rfl, FP.add_nan_left]
      rfl
    · show FP.sqrt (FP.add (FP.mul x x) (FP.mul FP.nan FP.nan)) = FP.nan
      rw [show FP.mul FP.nan FP.nan = FP.nan from rfl, FP.add_nan_right]
      rfl
  · intro a b h
    have hxx : FP.mul (FP.finite a) (FP.finite a) = FP.posInf := by
      simp [FP.mul, h]
    have hby : 0 ≤ b * b := mul_self_nonneg b
    have hyy : FP.add FP.posInf (FP.mul (FP.finite b) (FP.finite b)) = FP.posInf := by
      by_cases hb : maxFinite < b * b
      · simp [FP.mul, hb, FP.add]
      · have hb2 : ¬ b * b < -maxFinite := by
          push_neg
          linarith [maxFinite_pos]
        simp [FP.mul, hb, hb2, FP.add]
    rw [FP.size, hxx, hyy]
    rfl

/-- Witness for C7 at concrete inputs: `size nan (finite 0) = nan`, and
`size (finite 2^512) (finite 0) = posInf` since `(2^512)^2` overflows. -/
theorem size_nonfinite_propagation_witness :
    FP.size FP.nan (FP.finite 0) = FP.nan ∧
    FP.size (FP.finite (2 ^ 512)) (FP.finite 0) = FP.posInf := by
  constructor
  · exact size_nonfinite_propagation.1 FP.nan (FP.finite 0) (Or.inl rfl)
  · refine size_nonfinite_propagation.2 (2 ^ 512) 0 ?_
    unfold maxFinite
    norm_num

/-- C10: `size` is commutative in its two arguments over all binary64
values, finite or not. -/
theorem size_comm (x y : FP) : FP.size x y = FP.size y x := by
  unfold FP.size
  rw [FP.add_swap]

/-!
## `get_version` from `src/ebur128_wrapper.c`

The wrapper queries `ebur128_get_version(&major, &minor, &patch)` (the
linked third-party library, not part of this repository) and renders the
triple with `sprintf(version, "%d.%d.%d", major, minor, patch)` into a
`static char version[8]` buffer, returning that buffer.  The library's
triple is modelled as an arbitrary `VersionTriple` parameter; `%d` is the
minimal decimal rendering of a C `int`, with a leading `-` for negative
values.
-/

/-- The (major, minor, patch) triple produced by the library's
`ebur128_get_version` query. -/
structure VersionTriple where
  major : Int
  minor : Int
  patch : Int

/-- Decimal digits of `n`, most significant first, computed with a fuel
argument (`fuel > n` suffices) so the definition is structural. -/
def natDigitsAux : ℕ → ℕ → List Char
  | 0, _ => []
  | fuel + 1, n =>
      if n < 10 then [Nat.digitChar n]
      else natDigitsAux fuel (n / 10) ++ [Nat.digitChar (n % 10)]

/-- The minimal decimal rendering of a natural number, as `sprintf`'s `%d`
produces for non-negative values. -/
def natDigits (n : ℕ) : List Char := natDigitsAux (n + 1) n

/-- The rendering of a C `int` by `sprintf`'s `%d` conversion: minimal
decimal digits, preceded by `-` when negative. -/
def intDigits (i : Int) : List Char :=
  if i < 0 then '-' :: natDigits i.natAbs else natDigits i.natAbs

/-- The characters written by `sprintf(version, "%d.%d.%d", major, minor,
patch)` (not counting the terminating NUL). -/
def versionChars (major minor patch : Int) : List Char :=
  intDigits major ++ '.' :: (intDigits minor ++ '.' :: intDigits patch)

/-- The string returned by `get_version` for a given library triple. -/
def formatVersion (major minor patch : Int) : String :=
  { data := versionChars major minor patch }

/-- One call of `get_version`: the static buffer (threaded as state) is
overwritten with the rendered triple and the returned string is that
buffer's new content. -/
def get_version (v : VersionTriple) (_buffer : List Char) : String × List Char :=
  let written := versionChars v.major v.minor v.patch
  ({ data := written }, written)

/-- `n` successive calls of `get_version` within one process, threading the
static buffer, collecting the returned strings. -/
def runCalls (v : VersionTriple) : ℕ → List Char → List String
  | 0, _ => []
  | n + 1, buffer =>
      let call := get_version v buffer
      call.1 :: runCalls v n call.2

/-- A decimal digit character (`'0'` through `'9'`). -/
def isDigitCh (c : Char) : Prop := 48 ≤ c.toNat ∧ c.toNat ≤ 57

/-- Taken from the spec's words: a rendered decimal integer field —
non-empty, decimal digits only, and no leading zero unless it is exactly
`"0"`. -/
def isIntegerField (l : List Char) : Prop :=
  l ≠ [] ∧ (∀ c ∈ l, isDigitCh c) ∧ (l.head? = some '0' → l = ['0'])

/-- Taken from the spec's words: a string of the form
`integer.integer.integer` with exactly two `'.'` delimiters separating
three decimal integer fields. -/
def isVersionString (s : String) : Prop :=
  ∃ a b c : List Char,
    s.data = a ++ '.' :: (b ++ '.' :: c) ∧
    isIntegerField a ∧ isIntegerField b ∧ isIntegerField c

/-- The numeric value of a list of decimal digit characters. -/
def digitsVal (l : List Char) : ℕ :=
  l.foldl (fun a c => 10 * a + (c.toNat - 48)) 0

/-- The integer denoted by a rendered field: an optional leading `-`
followed by decimal digits. -/
def fieldVal (l : List Char) : Int :=
  if l.head? = some '-' then -(digitsVal l.tail : Int) else (digitsVal l : Int)

lemma digitChar_toNat (d : ℕ) (h : d < 10) : (Nat.digitChar d).toNat = 48 + d := by
  interval_cases d <;> decide

lemma digitChar_isDigit (d : ℕ) (h : d < 10) : isDigitCh (Nat.digitChar d) := by
  unfold isDigitCh
  rw [digitChar_toNat d h]
  omega

lemma natDigitsAux_ne_nil : ∀ fuel n, n < fuel → natDigitsAux fuel n ≠ [] := by
  intro fuel
  induction fuel with
  | zero => intro n h; omega
  | succ fuel ih =>
    intro n h
    by_cases h10 : n < 10 <;> simp [natDigitsAux, h10]

lemma natDigitsAux_all_digits :
    ∀ fuel n, n < fuel → ∀ c ∈ natDigitsAux fuel n, isDigitCh c := by
  intro fuel
  induction fuel with
  | zero => intro n h; omega
  | succ fuel ih =>
    intro n h c hc
    by_cases h10 : n < 10
    · simp [natDigitsAux, h10] at hc
      subst hc
      exact digitChar_isDigit n h10
    · have hdiv : n / 10 < fuel := by
        have := Nat.div_lt_self (show 0 < n by omega) (show 1 < 10 by omega)
        omega
      simp [natDigitsAux, h10] at hc
      rcases hc with hc | hc
      · exact ih (n / 10) hdiv c hc
      · subst hc
        exact digitChar_isDigit (n % 10) (Nat.mod_lt _ (by omega))

lemma natDigitsAux_head :
    ∀ fuel n, n < fuel → n ≠ 0 → (natDigitsAux fuel n).head? ≠ some '0' := by
  intro fuel
  induction fuel with
  | zero => intro n h; omega
  | succ fuel ih =>
    intro n h hn
    by_cases h10 : n < 10
    · simp only [natDigitsAux, if_pos h10, List.head?_cons]
      have h1 : 1 ≤ n := by omega
      have h9 : n ≤ 9 := by omega
      interval_cases n <;> decide
    · have hdiv : n / 10 < fuel := by
        have := Nat.div_lt_self (show 0 < n by omega) (show 1 < 10 by omega)
        omega
      have hdn : n / 10 ≠ 0 := by omega
      simp only [natDigitsAux, if_neg h10]
      cases hl : natDigitsAux fuel (n / 10) with
      | nil => exact absurd hl (natDigitsAux_ne_nil fuel (n / 10) hdiv)
      | cons a as =>
        have := ih (n / 10) hdiv hdn
        rw [hl] at this
        simpa using this

lemma foldl_natDigitsAux :
    ∀ fuel n, n < fuel → ∀ a : ℕ,
      List.foldl (fun a c => 10 * a + (c.toNat - 48)) a (natDigitsAux fuel n) =
        a * 10 ^ (natDigitsAux fuel n).length + n := by
  intro fuel
  induction fuel with
  | zero => intro n h; omega
  | succ fuel ih =>
    intro n h a
    by_cases h10 : n < 10
    · simp only [natDigitsAux, if_pos h10, List.foldl_cons, List.foldl_nil,
        List.length_cons, List.length_nil, pow_one, zero_add]
      rw [digitChar_toNat n h10]
      omega
    · have hdiv : n / 10 < fuel := by
        have := Nat.div_lt_self (show 0 < n by omega) (show 1 < 10 by omega)
        omega
      simp only [natDigitsAux, if_neg h10, List.foldl_append, List.foldl_cons,
        List.foldl_nil, List.length_append, List.length_cons, List.length_nil,
        zero_add]
      rw [ih (n / 10) hdiv a, digitChar_toNat (n % 10) (Nat.mod_lt _ (by omega))]
      obtain ⟨q, r, hr, rfl⟩ : ∃ q r, r < 10 ∧ n = 10 * q + r :=
        ⟨n / 10, n % 10, by omega, by omega⟩
      rw [show (10 * q + r) / 10 = q by omega, pow_succ]
      have hsub : 48 + (10 * q + r) % 10 - 48 = r := by omega
      rw [hsub]
      ring

lemma natDigits_ne_nil (n : ℕ) : natDigits n ≠ [] :=
  natDigitsAux_ne_nil (n + 1) n (by omega)

lemma natDigits_all_digits (n : ℕ) : ∀ c ∈ natDigits n, isDigitCh c :=
  natDigitsAux_all_digits (n + 1) n (by omega)

lemma natDigits_head (n : ℕ) (h : n ≠ 0) : (natDigits n).head? ≠ some '0' :=
  natDigitsAux_head (n + 1) n (by omega) h

lemma natDigits_zero : natDigits 0 = ['0'] := by decide

lemma digitsVal_natDigits (n : ℕ) : digitsVal (natDigits n) = n := by
  unfold digitsVal natDigits
  rw [foldl_natDigitsAux (n + 1) n (by omega) 0]
  simp

lemma natDigits_head_digit (n : ℕ) :
    ∀ c, (natDigits n).head? = some c → isDigitCh c := by
  intro c hc
  apply natDigits_all_digits n
  cases hl : natDigits n with
  | nil => exact absurd hl (natDigits_ne_nil n)
  | cons a as =>
    rw [hl] at hc
    simp at hc
    subst hc
    simp

lemma natDigits_head_ne_minus (n : ℕ) : (natDigits n).head? ≠ some '-' := by
  intro hc
  have hd := natDigits_head_digit n _ hc
  unfold isDigitCh at hd
  have hv : ('-').toNat = 45 := by decide
  omega

lemma fieldVal_natDigits (n : ℕ) : fieldVal (natDigits n) = (n : Int) := by
  unfold fieldVal
  rw [if_neg (natDigits_head_ne_minus n), digitsVal_natDigits]

lemma fieldVal_intDigits (i : Int) : fieldVal (intDigits i) = i := by
  unfold intDigits
  by_cases hi : i < 0
  · rw [if_pos hi]
    unfold fieldVal
    rw [if_pos (by simp), List.tail_cons, digitsVal_natDigits]
    omega
  · rw [if_neg hi, fieldVal_natDigits]
    omega

lemma natDigits_isField (n : ℕ) : isIntegerField (natDigits n) := by
  refine ⟨natDigits_ne_nil n, natDigits_all_digits n, ?_⟩
  intro hhead
  by_cases hn : n = 0
  · subst hn
    exact natDigits_zero
  · exact absurd hhead (natDigits_head n hn)

lemma intDigits_of_nonneg (i : Int) (h : 0 ≤ i) :
    intDigits i = natDigits i.natAbs := by
  unfold intDigits
  rw [if_neg (by omega)]

lemma no_dot_natDigits (n : ℕ) : ('.') ∉ natDigits n := by
  intro hmem
  have hd := natDigits_all_digits n _ hmem
  unfold isDigitCh at hd
  have hv : ('.').toNat = 46 := by decide
  omega

lemma notSpace_of_ge33 (ch : Char) (h : 33 ≤ ch.toNat) :
    ch ≠ ' ' ∧ ch ≠ '\t' ∧ ch ≠ '\n' ∧ ch ≠ '\r' := by
  refine ⟨?_, ?_, ?_, ?_⟩ <;> (rintro rfl; exact absurd h (by decide))

/-- C2: with the library's version integers non-negative (its own
contract), `get_version` renders a string of the form
`integer.integer.integer`: three decimal fields with no leading zeros
(unless a field is exactly `0`), exactly two `'.'` delimiters, and no
whitespace anywhere. -/
theorem get_version_pattern (major minor patch : Int)
    (h1 : 0 ≤ major) (h2 : 0 ≤ minor) (h3 : 0 ≤ patch) :
    isVersionString (formatVersion major minor patch) ∧
    (formatVersion major minor patch).data.count '.' = 2 ∧
    ∀ c ∈ (formatVersion major minor patch).data,
      c ≠ ' ' ∧ c ≠ '\t' ∧ c ≠ '\n' ∧ c ≠ '\r' := by
  have hdata : (formatVersion major minor patch).data =
      natDigits major.natAbs ++
        '.' :: (natDigits minor.natAbs ++ '.' :: natDigits patch.natAbs) := by
    show versionChars major minor patch = _
    unfold versionChars
    rw [intDigits_of_nonneg major h1, intDigits_of_nonneg minor h2,
      intDigits_of_nonneg patch h3]
  refine ⟨⟨natDigits major.natAbs, natDigits minor.natAbs, natDigits patch.natAbs,
      hdata, natDigits_isField _, natDigits_isField _, natDigits_isField _⟩, ?_, ?_⟩
  · rw [hdata]
    have c1 : (natDigits major.natAbs).count '.' = 0 :=
      List.count_eq_zero.mpr (no_dot_natDigits _)
    have c2 : (natDigits minor.natAbs).count '.' = 0 :=
      List.count_eq_zero.mpr (no_dot_natDigits _)
    have c3 : (natDigits patch.natAbs).count '.' = 0 :=
      List.count_eq_zero.mpr (no_dot_natDigits _)
    simp [List.count_append, List.count_cons, c1, c2, c3]
  · intro c hc
    rw [hdata] at hc
    simp only [List.mem_append, List.mem_cons] at hc
    have hdot : 33 ≤ ('.').toNat := by decide
    rcases hc with hc | rfl | hc | rfl | hc
    · exact notSpace_of_ge33 c (by
        have := natDigits_all_digits major.natAbs c hc
        unfold isDigitCh at this
        omega)
    · exact notSpace_of_ge33 _ hdot
    · exact notSpace_of_ge33 c (by
        have := natDigits_all_digits minor.natAbs c hc
        unfold isDigitCh at this
        omega)
    · exact notSpace_of_ge33 _ hdot
    · exact notSpace_of_ge33 c (by
        have := natDigits_all_digits patch.natAbs c hc
        unfold isDigitCh at this
        omega)

/-- Witness for C2 at the concrete triple (1, 2, 6). -/
theorem get_version_pattern_witness :
    (0 : Int) ≤ 1 ∧ (0 : Int) ≤ 2 ∧ (0 : Int) ≤ 6 ∧
    (isVersionString (formatVersion 1 2 6) ∧
      (formatVersion 1 2 6).data.count '.' = 2 ∧
      ∀ c ∈ (formatVersion 1 2 6).data,
        c ≠ ' ' ∧ c ≠ '\t' ∧ c ≠ '\n' ∧ c ≠ '\r') :=
  ⟨by decide, by decide, by decide,
    get_version_pattern 1 2 6 (by decide) (by decide) (by decide)⟩

/-- C3: `get_version` is idempotent — with the library's triple fixed for
the process, every call in a sequence of calls (threading the static
buffer) returns the same string, equal to the rendered triple. -/
theorem get_version_idempotent (v : VersionTriple) (n : ℕ) (buffer : List Char)
    (s : String) (hs : s ∈ runCalls v n buffer) :
    s = formatVersion v.major v.minor v.patch := by
  induction n generalizing buffer with
  | zero => simp [runCalls] at hs
  | succ n ih =>
    simp only [runCalls, get_version, List.mem_cons] at hs
    rcases hs with rfl | hs
    · rfl
    · exact ih _ hs

/-- Witness for C3: two successive calls at the triple (1, 2, 6) both
return `"1.2.6"`. -/
theorem get_version_idempotent_witness :
    "1.2.6" ∈ runCalls ⟨1, 2, 6⟩ 2 [] ∧
    "1.2.6" = formatVersion 1 2 6 :=
  ⟨by decide, get_version_idempotent ⟨1, 2, 6⟩ 2 [] _ (by decide)⟩

/-- C8: `get_version` has no error path — for every integer triple the
library could produce, including degenerate negative values, the result is
a plain string that decomposes into three fields rendering the triple
verbatim (each field's decimal value, with its optional `-` sign, is the
original integer). -/
theorem get_version_no_error_path (m n p : Int) :
    ∃ a b c : List Char,
      (formatVersion m n p).data = a ++ '.' :: (b ++ '.' :: c) ∧
      fieldVal a = m ∧ fieldVal b = n ∧ fieldVal c = p :=
  ⟨intDigits m, intDigits n, intDigits p, rfl,
    fieldVal_intDigits m, fieldVal_intDigits n, fieldVal_intDigits p⟩

/-- The size of the static buffer `static char version[8]`. -/
def versionBufferSize : ℕ := 8

/-- The number of bytes `sprintf(version, "%d.%d.%d", ...)` writes: the
rendered characters plus the terminating NUL. -/
def sprintfBytesWritten (m n p : Int) : ℕ := (versionChars m n p).length + 1

/-- The `sprintf` call stays inside the static buffer. -/
def sprintfInBounds (m n p : Int) : Prop :=
  sprintfBytesWritten m n p ≤ versionBufferSize

/-- C9: the `sprintf` write stays in bounds iff the rendered string with
its NUL occupies at most 8 bytes, i.e. at most 7 characters; a triple of
two-digit components such as (10, 10, 10) writes out of bounds, while
(1, 2, 6) stays in bounds. -/
theorem get_version_buffer_bounds :
    (∀ m n p : Int, sprintfInBounds m n p ↔ (versionChars m n p).length ≤ 7) ∧
    ¬ sprintfInBounds 10 10 10 ∧
    sprintfInBounds 1 2 6 := by
  refine ⟨?_, ?_, ?_⟩
  · intro m n p
    unfold sprintfInBounds sprintfBytesWritten versionBufferSize
    omega
  · unfold sprintfInBounds sprintfBytesWritten versionBufferSize
    decide
  · unfold sprintfInBounds sprintfBytesWritten versionBufferSize
    decide
